import Mathlib

/-!
# TempDesk retention policy and reconciler: a shallow embedding

This file embeds the age-based file visibility/retention subsystem of
TempDesk (`TempDesk.py`): the classification tests used by
`apply_file_filter` (lines 374-458) and `auto_cleanup` (lines 1114-1138),
the reconciliation pass itself, the settings-change handlers
`on_filter_changed` / `on_auto_delete_changed` (lines 646-666), and the
drop-ingestion naming of `view_drop_event` (lines 750-785).

Folders are modelled as lists of entries (name, ctime); time is `Int`
(seconds); the shadow folder "old" is part of the state (its own ctime
matters to `auto_cleanup`).  Fallible `os.rename` / `os.remove` calls are
modelled by a failure oracle `FailSpec`; `apply_file_filter` wraps its
whole loop in one try/except, so a failure aborts the remainder of the
pass, while `auto_cleanup` has a per-item try/except and skips only the
failing item.
-/

namespace TempDesk

/-! ## Decimal numerals: `Nat.repr` is injective

`view_drop_event` and `apply_file_filter` build collision suffixes with
Python `f"{base}_{counter}{ext}"`; the embedding uses `Nat.repr`.  To show
the candidate names are pairwise distinct we prove `Nat.repr` injective by
exhibiting a decimal decoder. -/

/-- Value of a decimal digit character produced by `Nat.digitChar`. -/
def digVal (c : Char) : Nat :=
  if c = '0' then 0 else
  if c = '1' then 1 else
  if c = '2' then 2 else
  if c = '3' then 3 else
  if c = '4' then 4 else
  if c = '5' then 5 else
  if c = '6' then 6 else
  if c = '7' then 7 else
  if c = '8' then 8 else
  if c = '9' then 9 else 0

/-- Decimal decoder with accumulator. -/
def decAcc : Nat → List Char → Nat
  | acc, [] => acc
  | acc, c :: cs => decAcc (acc * 10 + digVal c) cs

theorem digVal_digitChar (d : Nat) (h : d < 10) : digVal (Nat.digitChar d) = d := by
  interval_cases d <;> rfl

theorem decAcc_append (xs : List Char) : ∀ (acc : Nat) (ys : List Char),
    decAcc acc (xs ++ ys) = decAcc (decAcc acc xs) ys := by
  induction xs with
  | nil => intro acc ys; rfl
  | cons c cs ih => intro acc ys; simp [decAcc, ih]

theorem toDigitsCore_fuel (b : Nat) (hb : 2 ≤ b) : ∀ (f₁ f₂ n : Nat) (ds : List Char),
    n < f₁ → n < f₂ → Nat.toDigitsCore b f₁ n ds = Nat.toDigitsCore b f₂ n ds := by
  intro f₁
  induction f₁ with
  | zero => intro f₂ n ds h1 _; omega
  | succ f ih =>
    intro f₂ n ds h1 h2
    match f₂, h2 with
    | g + 1, _ =>
      simp only [Nat.toDigitsCore]
      by_cases hz : n / b = 0
      · simp [hz]
      · simp only [hz, if_false]
        have hn : 0 < n := by
          rcases Nat.eq_zero_or_pos n with h | h
          · subst h; simp [Nat.zero_div] at hz
          · exact h
        have hlt : n / b < n := Nat.div_lt_self hn (by omega)
        exact ih g (n / b) _ (by omega) (by omega)

theorem toDigitsCore_eq_append (b : Nat) : ∀ (f n : Nat) (ds : List Char),
    Nat.toDigitsCore b f n ds = Nat.toDigitsCore b f n [] ++ ds := by
  intro f
  induction f with
  | zero => intro n ds; simp [Nat.toDigitsCore]
  | succ f ih =>
    intro n ds
    simp only [Nat.toDigitsCore]
    by_cases hz : n / b = 0
    · simp [hz]
    · simp only [hz, if_false]
      rw [ih (n / b) (Nat.digitChar (n % b) :: ds), ih (n / b) [Nat.digitChar (n % b)]]
      simp

theorem decAcc_toDigits (n : Nat) : decAcc 0 (Nat.toDigits 10 n) = n := by
  induction n using Nat.strong_induction_on with
  | _ n ih =>
    unfold Nat.toDigits
    simp only [Nat.toDigitsCore]
    by_cases hz : n / 10 = 0
    · have hn : n < 10 := by omega
      simp [hz, decAcc, Nat.mod_eq_of_lt hn, digVal_digitChar n hn]
    · simp only [hz, if_false]
      have hn : 0 < n := by
        rcases Nat.eq_zero_or_pos n with h | h
        · subst h; simp at hz
        · exact h
      have hlt : n / 10 < n := Nat.div_lt_self hn (by omega)
      rw [toDigitsCore_eq_append 10 n (n / 10) [Nat.digitChar (n % 10)]]
      rw [toDigitsCore_fuel 10 (by omega) n (n / 10 + 1) (n / 10) [] (by omega) (by omega)]
      rw [decAcc_append]
      have := ih (n / 10) hlt
      unfold Nat.toDigits at this
      rw [this]
      simp [decAcc, digVal_digitChar _ (Nat.mod_lt _ (by omega))]
      omega

theorem natRepr_injective : Function.Injective Nat.repr := by
  intro m n h
  have hlist : Nat.toDigits 10 m = Nat.toDigits 10 n := by
    have := congrArg String.data h
    simpa [Nat.repr, List.asString] using this
  have := congrArg (decAcc 0) hlist
  rwa [decAcc_toDigits, decAcc_toDigits] at this

/-! ## Data model -/

/-- A direct regular-file entry of a folder: its name and the creation
time `os.path.getctime` reports at its current path (the time it was
placed there; preserved by `os.rename`). -/
structure FSEntry where
  name  : String
  ctime : Int
deriving DecidableEq, Repr

/-- State of the managed folder pair.  `main` holds the direct file
entries of the TempDesk folder (dotfiles included — `os.listdir` lists
them), `shadow` the direct file entries of its subfolder `"old"`, and
`oldCtime` the creation time of the `"old"` directory itself, which
`auto_cleanup` inspects like any other listing entry. -/
structure FolderState where
  main     : List FSEntry
  oldCtime : Int
  shadow   : List FSEntry
deriving DecidableEq, Repr

/-- The retention configuration: `config['filter_period']` (seconds,
default 86400) and `config['auto_delete']` (default `False`). -/
structure Config where
  filter_period : Int
  auto_delete   : Bool
deriving DecidableEq, Repr

/-- Location of a path, for the failure oracle. -/
inductive Loc where
  | mainLoc
  | shadowLoc
deriving DecidableEq, Repr

/-- Failure oracle: which `os.rename` / `os.remove` calls raise, keyed by
the source location and file name. -/
def FailSpec : Type := Loc → String → Bool

/-- The oracle under which no filesystem call fails. -/
def noFail : FailSpec := fun _ _ => false

/-- Actions a pass performs, in order. -/
inductive Action where
  | hide (src dst : String)
  | restore (name : String)
  | del (name : String)
  | delTree
deriving DecidableEq, Repr

/-- Actions that move a file (rename between the two folders) rather
than remove one from disk. -/
def isMoveAction : Action → Bool
  | .hide _ _ => true
  | .restore _ => true
  | .del _ => false
  | .delTree => false

/-! ## Classification tests, as written in the source -/

/-- The test `should_show = age <= filter_period` (TempDesk.py lines 408 and 440). -/
def should_show (age p : Int) : Bool := decide (age ≤ p)

/-- The deletion test of `auto_cleanup`, `(current_time - ctime) > filter_period`
(TempDesk.py line 1130). -/
def cleanup_deletes (age p : Int) : Bool := decide (p < age)

/-- The three-way classification of §4.1. -/
inductive Classification where
  | Visible
  | Hidden
  | Delete
deriving DecidableEq, Repr

/-- The classification the code computes, assembled from the two tests it
actually runs: `should_show` decides Visible in `apply_file_filter`, and a
non-visible file is deleted by `auto_cleanup` exactly when `auto_delete`
is set (lines 1116 and 1130), otherwise it stays hidden in `"old"`. -/
def classify_code (age p : Int) (autoDelete : Bool) : Classification :=
  if should_show age p then .Visible
  else if autoDelete then .Delete
  else .Hidden

/-- Modelled from the spec (§4.1 Retention Policy), for refinement
comparison with `classify_code`: `age <= filterPeriod` → Visible;
`age > filterPeriod` and not `autoDelete` → Hidden; `age > filterPeriod`
and `autoDelete` → Delete. -/
def classifySpec (age p : Int) (autoDelete : Bool) : Classification :=
  if age ≤ p then .Visible
  else if ¬ autoDelete then .Hidden
  else .Delete

/-! ## `os.path.splitext` -/

/-- Index of the last `'.'` in a character list, if any. -/
def lastDotIdx : List Char → Option Nat
  | [] => none
  | c :: cs =>
    match lastDotIdx cs with
    | some i => some (i + 1)
    | none => if c = '.' then some 0 else none

/-- Python `os.path.splitext` on a bare file name: split at the last dot, unless
every character before it is itself a dot (so `".bashrc"` has no
extension). -/
def splitext (s : String) : String × String :=
  let cs := s.data
  match lastDotIdx cs with
  | none => (s, "")
  | some d =>
    if (cs.take d).any (fun c => c ≠ '.') then ((cs.take d).asString, (cs.drop d).asString)
    else (s, "")

/-! ## Folder-listing helpers -/

/-- First entry with the given name, as the filesystem resolves a path. -/
def findEntry (f : String) : List FSEntry → Option FSEntry
  | [] => none
  | e :: es => if e.name = f then some e else findEntry f es

/-- Remove the entry a path resolves to (the first with that name). -/
def removeFirst (f : String) : List FSEntry → List FSEntry
  | [] => []
  | e :: es => if e.name = f then es else e :: removeFirst f es

/-- Python `os.path.exists` within one folder's file entries. -/
def hasName (l : List FSEntry) (f : String) : Bool := (findEntry f l).isSome

/-- Python `os.path.exists(os.path.join(TempDesk_folder, f))`: true for the file
entries of the managed folder and for the `"old"` subdirectory itself. -/
def existsInMain (s : FolderState) (f : String) : Bool := hasName s.main f || f == "old"

/-- Names of the shadow folder's entries. -/
def shadowNames (s : FolderState) : List String := s.shadow.map FSEntry.name

/-- Names `os.path.exists` can see directly under the managed folder. -/
def mainExistsNames (s : FolderState) : List String := s.main.map FSEntry.name ++ ["old"]

/-- The collision-avoidance loop of TempDesk.py lines 421-427 and 767-772:
starting from the original name, try `base`, `base_1`, `base_2`, … and
return the first candidate not present in the destination.  The Python
loop is unbounded; fuel `|dest| + 1` always suffices because the
candidates are pairwise distinct. -/
def nextFreeName (destNames : List String) (base ext : String) : Nat → Nat → String → String
  | 0, _, cand => cand
  | fuel + 1, counter, cand =>
    if cand ∈ destNames then
      nextFreeName destNames base ext fuel (counter + 1) (base ++ "_" ++ Nat.repr counter ++ ext)
    else cand

/-- The candidate sequence the loop walks: original name first, then the
numerically suffixed variants. -/
def candSeq (base ext : String) : Nat → String
  | 0 => base ++ ext
  | k + 1 => base ++ "_" ++ Nat.repr (k + 1) ++ ext

/-! ## The reconciliation pass (`apply_file_filter`, lines 374-458)

The pass snapshots `os.listdir` of the managed folder, drops dotfiles and
`"old"`, and processes each name: a file with `age <= filter_period`
stays (the restore sub-branch at lines 412-414 is unreachable, since the
file was just listed; it is kept for fidelity), an older file is renamed
into `"old"` under a collision-free name.  It then snapshots the shadow
folder and moves back every file with `age <= filter_period` whose name
is free in the managed folder.  The whole body sits in a single
try/except, so the first failing rename abandons the rest of the pass. -/

/-- Loop over the managed folder's listed names (lines 398-430).  Returns
the new state, the actions performed, and whether an exception aborted
the pass. -/
def runMainLoop (p now : Int) (fails : FailSpec) :
    List String → FolderState → FolderState × List Action × Bool
  | [], s => (s, [], false)
  | f :: rest, s =>
    match findEntry f s.main with
    | none => runMainLoop p now fails rest s
    | some e =>
      if should_show (now - e.ctime) p then
        if !existsInMain s f && hasName s.shadow f then
          match findEntry f s.shadow with
          | none => runMainLoop p now fails rest s
          | some he =>
            if fails .shadowLoc f then (s, [], true)
            else
              let s' : FolderState :=
                { s with shadow := removeFirst f s.shadow, main := s.main ++ [⟨f, he.ctime⟩] }
              let r := runMainLoop p now fails rest s'
              (r.1, .restore f :: r.2.1, r.2.2)
        else runMainLoop p now fails rest s
      else
        if existsInMain s f then
          let be := splitext f
          let dst := nextFreeName (shadowNames s) be.1 be.2 (s.shadow.length + 1) 1 f
          if fails .mainLoc f then (s, [], true)
          else
            let s' : FolderState :=
              { s with main := removeFirst f s.main, shadow := s.shadow ++ [⟨dst, e.ctime⟩] }
            let r := runMainLoop p now fails rest s'
            (r.1, .hide f dst :: r.2.1, r.2.2)
        else runMainLoop p now fails rest s

/-- Loop over the shadow folder's listed names (lines 432-447): restore a
young file unless its name already exists under the managed folder. -/
def runShadowLoop (p now : Int) (fails : FailSpec) :
    List String → FolderState → FolderState × List Action × Bool
  | [], s => (s, [], false)
  | hf :: rest, s =>
    match findEntry hf s.shadow with
    | none => runShadowLoop p now fails rest s
    | some e =>
      if should_show (now - e.ctime) p then
        if !existsInMain s hf then
          if fails .shadowLoc hf then (s, [], true)
          else
            let s' : FolderState :=
              { s with shadow := removeFirst hf s.shadow, main := s.main ++ [⟨hf, e.ctime⟩] }
            let r := runShadowLoop p now fails rest s'
            (r.1, .restore hf :: r.2.1, r.2.2)
        else runShadowLoop p now fails rest s
      else runShadowLoop p now fails rest s

/-- Python `f.startswith('.')`: the name's first character is a dot. -/
def startsWithDot (f : String) : Bool :=
  match f.data with
  | [] => false
  | c :: _ => c = '.'

/-- Names processed by the main loop (line 394):
`[f for f in files_in_folder if not f.startswith('.') and f != 'old']`. -/
def processNames (s : FolderState) : List String :=
  (s.main.map FSEntry.name).filter (fun f => !startsWithDot f && !(f == "old"))

/-- The pass `apply_file_filter` (lines 374-458).  `os.makedirs(..., exist_ok=True)`
keeps the shadow folder; a failure in the main loop skips the shadow loop
(single try/except around both). -/
def apply_file_filter (p now : Int) (fails : FailSpec) (s : FolderState) :
    FolderState × List Action :=
  let r1 := runMainLoop p now fails (processNames s) s
  if r1.2.2 then (r1.1, r1.2.1)
  else
    let r2 := runShadowLoop p now fails (FolderState.shadow r1.1 |>.map FSEntry.name) r1.1
    (r2.1, r1.2.1 ++ r2.2.1)

/-! ## `auto_cleanup` (lines 1114-1138)

If `auto_delete` is unset it returns at once.  Otherwise it walks
`os.listdir` of the managed folder — which includes dotfiles and the
`"old"` directory itself, neither excluded — and removes every item whose
ctime-age exceeds the period: files with `os.remove`, directories (in
particular `"old"`, wholesale with all its contents) with
`shutil.rmtree`.  Each item has its own try/except, so one failure skips
only that item.  The listing order does not affect the resulting state;
the model processes the file entries first and the `"old"` directory
last. -/

/-- Per-file deletion sweep of `auto_cleanup`. -/
def cleanupFiles (p now : Int) (fails : FailSpec) : List FSEntry → List FSEntry × List Action
  | [] => ([], [])
  | e :: es =>
    if cleanup_deletes (now - e.ctime) p then
      if fails .mainLoc e.name then
        let r := cleanupFiles p now fails es
        (e :: r.1, r.2)
      else
        let r := cleanupFiles p now fails es
        (r.1, .del e.name :: r.2)
    else
      let r := cleanupFiles p now fails es
      (e :: r.1, r.2)

/-- The pass `auto_cleanup` (lines 1114-1138). -/
def auto_cleanup (cfg : Config) (now : Int) (fails : FailSpec) (s : FolderState) :
    FolderState × List Action :=
  if !cfg.auto_delete then (s, [])
  else
    let p := cfg.filter_period
    let r := cleanupFiles p now fails s.main
    if cleanup_deletes (now - s.oldCtime) p then
      if fails .mainLoc "old" then ({ s with main := r.1 }, r.2)
      else ({ s with main := r.1, shadow := [] }, r.2 ++ [.delTree])
    else ({ s with main := r.1 }, r.2)

/-! ## Settings-change handlers (lines 646-666) -/

/-- Handler `on_filter_changed` (lines 646-661): store the new period, save the
config, and run `apply_file_filter` with it before returning. -/
def on_filter_changed (newPeriod : Int) (now : Int) (fails : FailSpec) (cfg : Config)
    (s : FolderState) : Config × FolderState × List Action :=
  let cfg' : Config := { cfg with filter_period := newPeriod }
  let r := apply_file_filter cfg'.filter_period now fails s
  (cfg', r.1, r.2)

/-- Handler `on_auto_delete_changed` (lines 663-666): store the checkbox value and
save the config.  No pass of any kind is triggered. -/
def on_auto_delete_changed (checked : Bool) (cfg : Config) (s : FolderState) :
    Config × FolderState × List Action :=
  ({ cfg with auto_delete := checked }, s, [])

/-! ## Drop ingestion (`view_drop_event`, lines 750-785) -/

/-- The per-URL core of `view_drop_event` (lines 760-774): pick a target
name free under the managed folder by the same suffix loop, then
`shutil.move` the source there, which stamps its ctime with the move
time. -/
def view_drop_ingest (s : FolderState) (filename : String) (now : Int) :
    FolderState × String :=
  let be := splitext filename
  let target :=
    nextFreeName (mainExistsNames s) be.1 be.2 ((mainExistsNames s).length + 1) 1 filename
  ({ s with main := s.main ++ [⟨target, now⟩] }, target)

/-! ## Basic lemmas about the listing helpers -/

theorem findEntry_eq_some {f : String} :
    ∀ {l : List FSEntry} {e : FSEntry}, findEntry f l = some e → e ∈ l ∧ e.name = f := by
  intro l
  induction l with
  | nil => intro e h; simp [findEntry] at h
  | cons x xs ih =>
    intro e h
    by_cases hx : x.name = f
    · simp only [findEntry, hx, if_true, Option.some.injEq] at h
      subst h; exact ⟨List.mem_cons_self _ _, hx⟩
    · simp only [findEntry, hx, if_false] at h
      obtain ⟨hm, hn⟩ := ih h
      exact ⟨List.mem_cons_of_mem _ hm, hn⟩

theorem hasName_of_mem {l : List FSEntry} {e : FSEntry} (h : e ∈ l) :
    hasName l e.name = true := by
  induction l with
  | nil => simp at h
  | cons x xs ih =>
    rcases List.mem_cons.mp h with h | h
    · subst h; simp [hasName, findEntry]
    · by_cases hx : x.name = e.name
      · simp [hasName, findEntry, hx]
      · simpa [hasName, findEntry, hx] using ih h

theorem hasName_iff_mem_map {l : List FSEntry} {f : String} :
    hasName l f = true ↔ f ∈ l.map FSEntry.name := by
  constructor
  · intro h
    cases hfe : findEntry f l with
    | none => simp [hasName, hfe] at h
    | some e =>
      obtain ⟨hm, hn⟩ := findEntry_eq_some hfe
      exact hn ▸ List.mem_map_of_mem _ hm
  · intro h
    obtain ⟨e, hm, hn⟩ := List.mem_map.mp h
    exact hn ▸ hasName_of_mem hm

theorem findEntry_of_nodup {l : List FSEntry} {e : FSEntry}
    (hl : (l.map FSEntry.name).Nodup) (h : e ∈ l) : findEntry e.name l = some e := by
  induction l with
  | nil => simp at h
  | cons x xs ih =>
    simp only [List.map_cons, List.nodup_cons] at hl
    rcases List.mem_cons.mp h with h | h
    · subst h; simp [findEntry]
    · by_cases hx : x.name = e.name
      · exfalso
        exact hl.1 (hx ▸ List.mem_map_of_mem _ h)
      · simpa [findEntry, hx] using ih hl.2 h

theorem removeFirst_subset {f : String} :
    ∀ {l : List FSEntry} {x : FSEntry}, x ∈ removeFirst f l → x ∈ l := by
  intro l
  induction l with
  | nil => intro x h; simp [removeFirst] at h
  | cons y ys ih =>
    intro x h
    by_cases hy : y.name = f
    · simp only [removeFirst, hy, if_true] at h
      exact List.mem_cons_of_mem _ h
    · simp only [removeFirst, hy, if_false, List.mem_cons] at h
      rcases h with h | h
      · exact h ▸ List.mem_cons_self _ _
      · exact List.mem_cons_of_mem _ (ih h)

theorem mem_removeFirst_or {f : String} :
    ∀ {l : List FSEntry} {e : FSEntry}, e ∈ l →
      e ∈ removeFirst f l ∨ findEntry f l = some e := by
  intro l
  induction l with
  | nil => intro e h; simp at h
  | cons x xs ih =>
    intro e h
    by_cases hx : x.name = f
    · rcases List.mem_cons.mp h with h | h
      · right; simp [findEntry, hx, h]
      · left; simpa [removeFirst, hx] using h
    · rcases List.mem_cons.mp h with h | h
      · left; simp [removeFirst, hx, h]
      · rcases ih h with h' | h'
        · left; simp [removeFirst, hx, h']
        · right; simpa [findEntry, hx] using h'

theorem map_name_removeFirst_sublist (f : String) :
    ∀ l : List FSEntry, ((removeFirst f l).map FSEntry.name).Sublist (l.map FSEntry.name) := by
  intro l
  induction l with
  | nil => simp [removeFirst]
  | cons x xs ih =>
    by_cases hx : x.name = f
    · simp only [removeFirst, hx, if_true, List.map_cons]
      exact List.sublist_cons_of_sublist _ (List.Sublist.refl _)
    · simp only [removeFirst, hx, if_false, List.map_cons]
      exact List.Sublist.cons₂ _ ih

theorem nodup_removeFirst {f : String} {l : List FSEntry}
    (h : (l.map FSEntry.name).Nodup) : ((removeFirst f l).map FSEntry.name).Nodup :=
  h.sublist (map_name_removeFirst_sublist f l)

theorem hasName_removeFirst_self {f : String} :
    ∀ {l : List FSEntry}, (l.map FSEntry.name).Nodup → hasName (removeFirst f l) f = false := by
  intro l
  induction l with
  | nil => intro _; simp [removeFirst, hasName, findEntry]
  | cons x xs ih =>
    intro h
    simp only [List.map_cons, List.nodup_cons] at h
    by_cases hx : x.name = f
    · simp only [removeFirst, hx, if_true]
      cases hfe : findEntry f xs with
      | none => simp [hasName, hfe]
      | some e =>
        exfalso
        obtain ⟨hm, hn⟩ := findEntry_eq_some hfe
        exact h.1 (hx ▸ hn ▸ List.mem_map_of_mem _ hm)
    · simpa [removeFirst, hx, hasName, findEntry] using ih h.2

theorem perm_cons_removeFirst {f : String} :
    ∀ {l : List FSEntry} {e : FSEntry}, findEntry f l = some e →
      l.Perm (e :: removeFirst f l) := by
  intro l
  induction l with
  | nil => intro e h; simp [findEntry] at h
  | cons x xs ih =>
    intro e h
    by_cases hx : x.name = f
    · simp only [findEntry, hx, if_true, Option.some.injEq] at h
      subst h
      simp [removeFirst, hx]
    · simp only [findEntry, hx, if_false] at h
      simp only [removeFirst, hx, if_false]
      exact ((ih h).cons x).trans (List.Perm.swap e x _)

/-! ## The collision-suffix loop: first-free-candidate characterization -/

theorem candSeq_injective (base ext : String) : Function.Injective (candSeq base ext) := by
  have hu : ("_" : String).data = ['_'] := rfl
  intro i j h
  match i, j with
  | 0, 0 => rfl
  | 0, k + 1 =>
    exfalso
    have hd := congrArg String.data h
    simp only [candSeq, String.data_append, List.append_assoc, hu] at hd
    have hc := List.append_cancel_left hd
    have := congrArg List.length hc
    simp [List.length_append] at this
    omega
  | k + 1, 0 =>
    exfalso
    have hd := congrArg String.data h.symm
    simp only [candSeq, String.data_append, List.append_assoc, hu] at hd
    have hc := List.append_cancel_left hd
    have := congrArg List.length hc
    simp [List.length_append] at this
    omega
  | a + 1, b + 1 =>
    have hd := congrArg String.data h
    simp only [candSeq, String.data_append, List.append_assoc, hu] at hd
    have hc := List.cons_injective.eq_iff.mp (List.append_cancel_left hd)
    have hr : (Nat.repr (a + 1)).data = (Nat.repr (b + 1)).data :=
      List.append_cancel_right hc
    have := natRepr_injective (String.ext hr)
    omega

theorem exists_free_candidate (dest : List String) (base ext : String) :
    ∃ j, j < dest.length + 1 ∧ candSeq base ext j ∉ dest := by
  by_contra hc
  push_neg at hc
  have hsub : ((List.range (dest.length + 1)).map (candSeq base ext)) ⊆ dest := by
    intro x hx
    obtain ⟨j, hj, rfl⟩ := List.mem_map.mp hx
    exact hc j (List.mem_range.mp hj)
  have hnd : ((List.range (dest.length + 1)).map (candSeq base ext)).Nodup :=
    (List.nodup_range _).map (candSeq_injective base ext)
  have := (List.subperm_of_subset hnd hsub).length_le
  simp at this

theorem nextFreeName_spec (dest : List String) (base ext : String) :
    ∀ (fuel start : Nat),
      (∃ j, j < fuel ∧ candSeq base ext (start + j) ∉ dest) →
      ∃ j, nextFreeName dest base ext fuel (start + 1) (candSeq base ext start) =
            candSeq base ext (start + j) ∧
          candSeq base ext (start + j) ∉ dest ∧
          ∀ i < j, candSeq base ext (start + i) ∈ dest := by
  intro fuel
  induction fuel with
  | zero =>
    intro start h
    obtain ⟨j, hj, _⟩ := h
    omega
  | succ fuel ih =>
    intro start h
    obtain ⟨j, hj, hfree⟩ := h
    by_cases hmem : candSeq base ext start ∈ dest
    · have hcand : candSeq base ext (start + 1) = base ++ "_" ++ Nat.repr (start + 1) ++ ext := rfl
      have hstep : nextFreeName dest base ext (fuel + 1) (start + 1) (candSeq base ext start) =
          nextFreeName dest base ext fuel (start + 1 + 1) (candSeq base ext (start + 1)) := by
        rw [hcand]
        simp only [nextFreeName]
        rw [if_pos hmem]
      have hj0 : j ≠ 0 := by
        rintro rfl
        exact hfree (by simpa using hmem)
      obtain ⟨j', rfl⟩ := Nat.exists_eq_succ_of_ne_zero hj0
      have hex : ∃ j₂, j₂ < fuel ∧ candSeq base ext (start + 1 + j₂) ∉ dest := by
        refine ⟨j', by omega, ?_⟩
        have harith : start + 1 + j' = start + (j' + 1) := by omega
        rw [harith]; exact hfree
      obtain ⟨j₂, heq, hfree₂, hfirst⟩ := ih (start + 1) hex
      refine ⟨j₂ + 1, ?_, ?_, ?_⟩
      · rw [hstep, heq]
        congr 1
        omega
      · have harith : start + (j₂ + 1) = start + 1 + j₂ := by omega
        rw [harith]; exact hfree₂
      · intro i hi
        match i, hi with
        | 0, _ => simpa using hmem
        | i' + 1, hi =>
          have harith : start + (i' + 1) = start + 1 + i' := by omega
          rw [harith]
          exact hfirst i' (by omega)
    · exact ⟨0, by simp [nextFreeName, hmem], by simpa using hmem, fun i hi => by omega⟩

theorem nextFreeName_first_free (dest : List String) (base ext : String) :
    ∃ j, nextFreeName dest base ext (dest.length + 1) 1 (base ++ ext) = candSeq base ext j ∧
        candSeq base ext j ∉ dest ∧ ∀ i < j, candSeq base ext i ∈ dest := by
  obtain ⟨j, hj, hfree⟩ := exists_free_candidate dest base ext
  have h := nextFreeName_spec dest base ext (dest.length + 1) 0 ⟨j, hj, by simpa using hfree⟩
  simpa [candSeq] using h

theorem nextFreeName_not_mem (dest : List String) (base ext : String) :
    nextFreeName dest base ext (dest.length + 1) 1 (base ++ ext) ∉ dest := by
  obtain ⟨j, heq, hfree, _⟩ := nextFreeName_first_free dest base ext
  rw [heq]; exact hfree

theorem splitext_append (s : String) : (splitext s).1 ++ (splitext s).2 = s := by
  cases hld : lastDotIdx s.data with
  | none => simp [splitext, hld]
  | some d =>
    by_cases hany : (s.data.take d).any (fun c => c ≠ '.')
    · simp only [splitext, hld, hany, if_true]
      apply String.ext
      have h1 : ∀ l : List Char, (List.asString l).data = l := fun _ => rfl
      simp only [String.data_append, h1]
      exact List.take_append_drop d s.data
    · have hex : ¬∃ x ∈ s.data.take d, ¬x = '.' := by simpa using hany
      simp [splitext, hld, hex]

/-! ## One-step equations for the pass loops

In `runMainLoop`, when `findEntry` finds the listed file, the restore
sub-branch of lines 412-414 is dead (`os.path.exists(file_path)` is true),
and the `os.path.exists` guard of the hide branch (line 419) is true; the
step equation below reflects this once and for all. -/

theorem runMainLoop_cons (p now : Int) (fails : FailSpec) (f : String) (rest : List String)
    (s : FolderState) :
    runMainLoop p now fails (f :: rest) s =
      match findEntry f s.main with
      | none => runMainLoop p now fails rest s
      | some e =>
        if should_show (now - e.ctime) p then runMainLoop p now fails rest s
        else if fails .mainLoc f then (s, [], true)
        else
          let dst := nextFreeName (shadowNames s) (splitext f).1 (splitext f).2
              (s.shadow.length + 1) 1 f
          let r := runMainLoop p now fails rest
            { s with main := removeFirst f s.main, shadow := s.shadow ++ [⟨dst, e.ctime⟩] }
          (r.1, .hide f dst :: r.2.1, r.2.2) := by
  cases hfe : findEntry f s.main with
  | none => simp [runMainLoop, hfe]
  | some e =>
    have hex : existsInMain s f = true := by simp [existsInMain, hasName, hfe]
    simp only [runMainLoop, hfe, hex]
    by_cases hy : should_show (now - e.ctime) p
    · simp [hy]
    · simp [hy]

theorem runShadowLoop_cons (p now : Int) (fails : FailSpec) (hf : String)
    (rest : List String) (s : FolderState) :
    runShadowLoop p now fails (hf :: rest) s =
      match findEntry hf s.shadow with
      | none => runShadowLoop p now fails rest s
      | some e =>
        if should_show (now - e.ctime) p then
          if existsInMain s hf then runShadowLoop p now fails rest s
          else if fails .shadowLoc hf then (s, [], true)
          else
            let r := runShadowLoop p now fails rest
              { s with shadow := removeFirst hf s.shadow, main := s.main ++ [⟨hf, e.ctime⟩] }
            (r.1, .restore hf :: r.2.1, r.2.2)
        else runShadowLoop p now fails rest s := by
  cases hfe : findEntry hf s.shadow with
  | none => simp [runShadowLoop, hfe]
  | some e =>
    simp only [runShadowLoop, hfe]
    by_cases hy : should_show (now - e.ctime) p
    · by_cases hex : existsInMain s hf
      · simp [hy, hex]
      · simp [hy, hex]
    · simp [hy]

/-! ## Membership lemmas for the loops -/

theorem runMainLoop_main_subset (p now : Int) (fails : FailSpec) :
    ∀ (names : List String) (s : FolderState) (x : FSEntry),
      x ∈ (runMainLoop p now fails names s).1.main → x ∈ s.main := by
  intro names
  induction names with
  | nil => intro s x hx; simpa [runMainLoop] using hx
  | cons f rest ih =>
    intro s x hx
    rw [runMainLoop_cons] at hx
    cases hfe : findEntry f s.main with
    | none =>
      simp only [hfe] at hx
      exact ih s x hx
    | some e =>
      simp only [hfe] at hx
      by_cases hy : should_show (now - e.ctime) p = true
      · rw [if_pos hy] at hx
        exact ih s x hx
      · rw [if_neg hy] at hx
        by_cases hfl : fails .mainLoc f = true
        · rw [if_pos hfl] at hx
          exact hx
        · rw [if_neg hfl] at hx
          exact removeFirst_subset (ih _ x hx)

theorem runShadowLoop_main_mono (p now : Int) (fails : FailSpec) :
    ∀ (names : List String) (s : FolderState) (x : FSEntry),
      x ∈ s.main → x ∈ (runShadowLoop p now fails names s).1.main := by
  intro names
  induction names with
  | nil => intro s x hx; simpa [runShadowLoop] using hx
  | cons hf rest ih =>
    intro s x hx
    rw [runShadowLoop_cons]
    cases hfe : findEntry hf s.shadow with
    | none =>
      simp only [hfe]
      exact ih s x hx
    | some e =>
      simp only [hfe]
      by_cases hy : should_show (now - e.ctime) p = true
      · rw [if_pos hy]
        by_cases hex : existsInMain s hf = true
        · rw [if_pos hex]
          exact ih s x hx
        · rw [if_neg hex]
          by_cases hfl : fails .shadowLoc hf = true
          · rw [if_pos hfl]
            exact hx
          · rw [if_neg hfl]
            exact ih _ x (List.mem_append_left _ hx)
      · rw [if_neg hy]
        exact ih s x hx

theorem runShadowLoop_shadow_subset (p now : Int) (fails : FailSpec) :
    ∀ (names : List String) (s : FolderState) (x : FSEntry),
      x ∈ (runShadowLoop p now fails names s).1.shadow → x ∈ s.shadow := by
  intro names
  induction names with
  | nil => intro s x hx; simpa [runShadowLoop] using hx
  | cons hf rest ih =>
    intro s x hx
    rw [runShadowLoop_cons] at hx
    cases hfe : findEntry hf s.shadow with
    | none =>
      simp only [hfe] at hx
      exact ih s x hx
    | some e =>
      simp only [hfe] at hx
      by_cases hy : should_show (now - e.ctime) p = true
      · rw [if_pos hy] at hx
        by_cases hex : existsInMain s hf = true
        · rw [if_pos hex] at hx
          exact ih s x hx
        · rw [if_neg hex] at hx
          by_cases hfl : fails .shadowLoc hf = true
          · rw [if_pos hfl] at hx
            exact hx
          · rw [if_neg hfl] at hx
            exact removeFirst_subset (ih _ x hx)
      · rw [if_neg hy] at hx
        exact ih s x hx

theorem runShadowLoop_main_new_young (p now : Int) (fails : FailSpec) :
    ∀ (names : List String) (s : FolderState) (x : FSEntry),
      x ∈ (runShadowLoop p now fails names s).1.main →
      x ∈ s.main ∨ should_show (now - x.ctime) p = true := by
  intro names
  induction names with
  | nil => intro s x hx; left; simpa [runShadowLoop] using hx
  | cons hf rest ih =>
    intro s x hx
    rw [runShadowLoop_cons] at hx
    cases hfe : findEntry hf s.shadow with
    | none =>
      simp only [hfe] at hx
      exact ih s x hx
    | some e =>
      simp only [hfe] at hx
      by_cases hy : should_show (now - e.ctime) p = true
      · rw [if_pos hy] at hx
        by_cases hex : existsInMain s hf = true
        · rw [if_pos hex] at hx
          exact ih s x hx
        · rw [if_neg hex] at hx
          by_cases hfl : fails .shadowLoc hf = true
          · rw [if_pos hfl] at hx
            exact Or.inl hx
          · rw [if_neg hfl] at hx
            rcases ih _ x hx with hm | hm
            · rcases List.mem_append.mp hm with hm | hm
              · exact Or.inl hm
              · simp only [List.mem_singleton] at hm
                subst hm
                exact Or.inr hy
            · exact Or.inr hm
      · rw [if_neg hy] at hx
        exact ih s x hx

theorem runMainLoop_young_mem (p now : Int) (fails : FailSpec) :
    ∀ (names : List String) (s : FolderState) (e : FSEntry),
      e ∈ s.main → should_show (now - e.ctime) p = true →
      e ∈ (runMainLoop p now fails names s).1.main := by
  intro names
  induction names with
  | nil => intro s e he _; simpa [runMainLoop] using he
  | cons f rest ih =>
    intro s e he hy
    rw [runMainLoop_cons]
    cases hfe : findEntry f s.main with
    | none =>
      simp only [hfe]
      exact ih s e he hy
    | some e₀ =>
      simp only [hfe]
      by_cases hy₀ : should_show (now - e₀.ctime) p = true
      · rw [if_pos hy₀]
        exact ih s e he hy
      · rw [if_neg hy₀]
        by_cases hfl : fails .mainLoc f = true
        · rw [if_pos hfl]
          exact he
        · rw [if_neg hfl]
          refine ih _ e ?_ hy
          rcases mem_removeFirst_or (f := f) he with h | h
          · exact h
          · rw [hfe] at h
            cases h
            exact absurd hy hy₀

/-! ## Freshness of chosen destination names; per-folder uniqueness -/

theorem hasName_append_left {l l₂ : List FSEntry} {f : String}
    (h : hasName l f = true) : hasName (l ++ l₂) f = true := by
  rw [hasName_iff_mem_map] at h ⊢
  simp only [List.map_append, List.mem_append]
  exact Or.inl h

theorem existsInMain_append {s : FolderState} {l : List FSEntry} {f : String}
    (h : existsInMain s f = true) :
    existsInMain { s with main := s.main ++ l } f = true := by
  simp only [existsInMain, Bool.or_eq_true] at h ⊢
  rcases h with h | h
  · exact Or.inl (hasName_append_left h)
  · exact Or.inr h

theorem nextFreeName_free (dest : List String) (base ext : String) (fuel : Nat)
    (hfuel : dest.length < fuel) :
    nextFreeName dest base ext fuel 1 (base ++ ext) ∉ dest := by
  obtain ⟨j, hj, hfree⟩ := exists_free_candidate dest base ext
  obtain ⟨j', heq, hfree', _⟩ :=
    nextFreeName_spec dest base ext fuel 0 ⟨j, by omega, by simpa using hfree⟩
  have heq' : nextFreeName dest base ext fuel 1 (base ++ ext) = candSeq base ext (0 + j') := heq
  rw [heq']
  exact hfree'

theorem hide_dst_not_mem (s : FolderState) (f : String) :
    nextFreeName (shadowNames s) (splitext f).1 (splitext f).2 (s.shadow.length + 1) 1 f ∉
      shadowNames s := by
  have h := nextFreeName_free (shadowNames s) (splitext f).1 (splitext f).2
    (s.shadow.length + 1) (by simp [shadowNames])
  rwa [splitext_append f] at h

theorem ingest_target_not_mem (s : FolderState) (f : String) :
    nextFreeName (mainExistsNames s) (splitext f).1 (splitext f).2
      ((mainExistsNames s).length + 1) 1 f ∉ mainExistsNames s := by
  have h := nextFreeName_free (mainExistsNames s) (splitext f).1 (splitext f).2
    ((mainExistsNames s).length + 1) (by omega)
  rwa [splitext_append f] at h

theorem runMainLoop_nodup (p now : Int) (fails : FailSpec) :
    ∀ (names : List String) (s : FolderState),
      (s.main.map FSEntry.name).Nodup → (s.shadow.map FSEntry.name).Nodup →
      ((runMainLoop p now fails names s).1.main.map FSEntry.name).Nodup ∧
      ((runMainLoop p now fails names s).1.shadow.map FSEntry.name).Nodup := by
  intro names
  induction names with
  | nil => intro s hm hs; simpa [runMainLoop] using ⟨hm, hs⟩
  | cons f rest ih =>
    intro s hm hs
    rw [runMainLoop_cons]
    cases hfe : findEntry f s.main with
    | none =>
      simp only [hfe]
      exact ih s hm hs
    | some e =>
      simp only [hfe]
      by_cases hy : should_show (now - e.ctime) p = true
      · rw [if_pos hy]
        exact ih s hm hs
      · rw [if_neg hy]
        by_cases hfl : fails .mainLoc f = true
        · rw [if_pos hfl]
          exact ⟨hm, hs⟩
        · rw [if_neg hfl]
          refine ih _ (nodup_removeFirst hm) ?_
          simp only [List.map_append, List.map_cons, List.map_nil]
          rw [List.nodup_append]
          refine ⟨hs, List.nodup_singleton _, ?_⟩
          intro a ha hb
          simp only [List.mem_singleton] at hb
          subst hb
          exact hide_dst_not_mem s f ha

theorem runShadowLoop_nodup (p now : Int) (fails : FailSpec) :
    ∀ (names : List String) (s : FolderState),
      (s.main.map FSEntry.name).Nodup → (s.shadow.map FSEntry.name).Nodup →
      ((runShadowLoop p now fails names s).1.main.map FSEntry.name).Nodup ∧
      ((runShadowLoop p now fails names s).1.shadow.map FSEntry.name).Nodup := by
  intro names
  induction names with
  | nil => intro s hm hs; simpa [runShadowLoop] using ⟨hm, hs⟩
  | cons hf rest ih =>
    intro s hm hs
    rw [runShadowLoop_cons]
    cases hfe : findEntry hf s.shadow with
    | none =>
      simp only [hfe]
      exact ih s hm hs
    | some e =>
      simp only [hfe]
      by_cases hy : should_show (now - e.ctime) p = true
      · rw [if_pos hy]
        by_cases hex : existsInMain s hf = true
        · rw [if_pos hex]
          exact ih s hm hs
        · rw [if_neg hex]
          by_cases hfl : fails .shadowLoc hf = true
          · rw [if_pos hfl]
            exact ⟨hm, hs⟩
          · rw [if_neg hfl]
            refine ih _ ?_ (nodup_removeFirst hs)
            simp only [List.map_append, List.map_cons, List.map_nil]
            rw [List.nodup_append]
            refine ⟨hm, List.nodup_singleton _, ?_⟩
            intro a ha hb
            simp only [List.mem_singleton] at hb
            subst hb
            have hnm : a ∉ s.main.map FSEntry.name := by
              intro hmem
              have h := hasName_iff_mem_map.mpr hmem
              simp [existsInMain, h] at hex
            exact hnm ha
      · rw [if_neg hy]
        exact ih s hm hs

/-! ## The pass never deletes: trace shape and ctime-multiset preservation -/

theorem runMainLoop_trace_moves (p now : Int) (fails : FailSpec) :
    ∀ (names : List String) (s : FolderState),
      ((runMainLoop p now fails names s).2.1).all isMoveAction = true := by
  intro names
  induction names with
  | nil => intro s; simp [runMainLoop]
  | cons f rest ih =>
    intro s
    rw [runMainLoop_cons]
    cases hfe : findEntry f s.main with
    | none =>
      simp only [hfe]
      exact ih s
    | some e =>
      simp only [hfe]
      by_cases hy : should_show (now - e.ctime) p = true
      · rw [if_pos hy]; exact ih s
      · rw [if_neg hy]
        by_cases hfl : fails .mainLoc f = true
        · rw [if_pos hfl]; simp
        · rw [if_neg hfl]
          simp only [List.all_cons, Bool.and_eq_true]
          exact ⟨rfl, ih _⟩

theorem runShadowLoop_trace_moves (p now : Int) (fails : FailSpec) :
    ∀ (names : List String) (s : FolderState),
      ((runShadowLoop p now fails names s).2.1).all isMoveAction = true := by
  intro names
  induction names with
  | nil => intro s; simp [runShadowLoop]
  | cons hf rest ih =>
    intro s
    rw [runShadowLoop_cons]
    cases hfe : findEntry hf s.shadow with
    | none =>
      simp only [hfe]
      exact ih s
    | some e =>
      simp only [hfe]
      by_cases hy : should_show (now - e.ctime) p = true
      · rw [if_pos hy]
        by_cases hex : existsInMain s hf = true
        · rw [if_pos hex]; exact ih s
        · rw [if_neg hex]
          by_cases hfl : fails .shadowLoc hf = true
          · rw [if_pos hfl]; simp
          · rw [if_neg hfl]
            simp only [List.all_cons, Bool.and_eq_true]
            exact ⟨rfl, ih _⟩
      · rw [if_neg hy]
        exact ih s

theorem runMainLoop_perm (p now : Int) (fails : FailSpec) :
    ∀ (names : List String) (s : FolderState),
      (((runMainLoop p now fails names s).1.main ++
          (runMainLoop p now fails names s).1.shadow).map FSEntry.ctime).Perm
        ((s.main ++ s.shadow).map FSEntry.ctime) := by
  intro names
  induction names with
  | nil => intro s; simp [runMainLoop]
  | cons f rest ih =>
    intro s
    rw [runMainLoop_cons]
    cases hfe : findEntry f s.main with
    | none =>
      simp only [hfe]
      exact ih s
    | some e =>
      simp only [hfe]
      by_cases hy : should_show (now - e.ctime) p = true
      · rw [if_pos hy]; exact ih s
      · rw [if_neg hy]
        by_cases hfl : fails .mainLoc f = true
        · rw [if_pos hfl]
        · rw [if_neg hfl]
          refine (ih _).trans ?_
          have hd := (perm_cons_removeFirst hfe).map FSEntry.ctime
          simp only [List.map_append, List.map_cons, List.map_nil]
          refine List.Perm.trans ?_ ((hd.append_right (s.shadow.map FSEntry.ctime)).symm)
          rw [← List.append_assoc]
          refine (List.perm_append_singleton _ _).trans ?_
          exact List.Perm.refl _

theorem runShadowLoop_perm (p now : Int) (fails : FailSpec) :
    ∀ (names : List String) (s : FolderState),
      (((runShadowLoop p now fails names s).1.main ++
          (runShadowLoop p now fails names s).1.shadow).map FSEntry.ctime).Perm
        ((s.main ++ s.shadow).map FSEntry.ctime) := by
  intro names
  induction names with
  | nil => intro s; simp [runShadowLoop]
  | cons hf rest ih =>
    intro s
    rw [runShadowLoop_cons]
    cases hfe : findEntry hf s.shadow with
    | none =>
      simp only [hfe]
      exact ih s
    | some e =>
      simp only [hfe]
      by_cases hy : should_show (now - e.ctime) p = true
      · rw [if_pos hy]
        by_cases hex : existsInMain s hf = true
        · rw [if_pos hex]; exact ih s
        · rw [if_neg hex]
          by_cases hfl : fails .shadowLoc hf = true
          · rw [if_pos hfl]
          · rw [if_neg hfl]
            refine (ih _).trans ?_
            have hd := (perm_cons_removeFirst hfe).map FSEntry.ctime
            simp only [List.map_append, List.map_cons, List.map_nil]
            refine List.Perm.trans ?_ ((hd.append_left (s.main.map FSEntry.ctime)).symm)
            simp only [List.append_assoc, List.singleton_append]
            exact List.Perm.refl _
      · rw [if_neg hy]
        exact ih s

/-! ## Second-pass no-op lemmas and the invariants established by a pass -/

theorem runMainLoop_noop (p now : Int) :
    ∀ (names : List String) (s : FolderState),
      (∀ f ∈ names, ∀ e ∈ s.main, e.name = f → should_show (now - e.ctime) p = true) →
      runMainLoop p now noFail names s = (s, [], false) := by
  intro names
  induction names with
  | nil => intro s _; rfl
  | cons f rest ih =>
    intro s hyp
    rw [runMainLoop_cons]
    cases hfe : findEntry f s.main with
    | none =>
      simp only [hfe]
      exact ih s fun g hg e he hn => hyp g (List.mem_cons_of_mem _ hg) e he hn
    | some e =>
      simp only [hfe]
      obtain ⟨hm, hn⟩ := findEntry_eq_some hfe
      rw [if_pos (hyp f (List.mem_cons_self _ _) e hm hn)]
      exact ih s fun g hg e' he' hn' => hyp g (List.mem_cons_of_mem _ hg) e' he' hn'

theorem runShadowLoop_noop (p now : Int) :
    ∀ (names : List String) (s : FolderState),
      (∀ e ∈ s.shadow, should_show (now - e.ctime) p = true → existsInMain s e.name = true) →
      runShadowLoop p now noFail names s = (s, [], false) := by
  intro names
  induction names with
  | nil => intro s _; rfl
  | cons hf rest ih =>
    intro s hyp
    rw [runShadowLoop_cons]
    cases hfe : findEntry hf s.shadow with
    | none =>
      simp only [hfe]
      exact ih s hyp
    | some e =>
      simp only [hfe]
      obtain ⟨hm, hn⟩ := findEntry_eq_some hfe
      by_cases hy : should_show (now - e.ctime) p = true
      · rw [if_pos hy, if_pos (hn ▸ hyp e hm hy)]
        exact ih s hyp
      · rw [if_neg hy]
        exact ih s hyp

theorem runMainLoop_result_young (p now : Int) :
    ∀ (names : List String) (s : FolderState),
      (s.main.map FSEntry.name).Nodup →
      ∀ e ∈ (runMainLoop p now noFail names s).1.main, e.name ∈ names →
        should_show (now - e.ctime) p = true := by
  intro names
  induction names with
  | nil =>
    intro s _ e _ hn
    simp at hn
  | cons f rest ih =>
    intro s hm e he hn
    rw [runMainLoop_cons] at he
    cases hfe : findEntry f s.main with
    | none =>
      simp only [hfe] at he
      rcases List.mem_cons.mp hn with hn | hn
      · exfalso
        have hmem : e ∈ s.main := runMainLoop_main_subset p now noFail rest s e he
        have := hasName_of_mem hmem
        rw [hn] at this
        simp [hasName, hfe] at this
      · exact ih s hm e he hn
    | some e₀ =>
      simp only [hfe] at he
      by_cases hy₀ : should_show (now - e₀.ctime) p = true
      · rw [if_pos hy₀] at he
        rcases List.mem_cons.mp hn with hn | hn
        · have hmem : e ∈ s.main := runMainLoop_main_subset p now noFail rest s e he
          have : findEntry e.name s.main = some e := findEntry_of_nodup hm hmem
          rw [hn, hfe] at this
          cases this
          exact hy₀
        · exact ih s hm e he hn
      · rw [if_neg hy₀] at he
        rw [if_neg (by simp [noFail] : ¬noFail .mainLoc f = true)] at he
        rcases List.mem_cons.mp hn with hn | hn
        · exfalso
          have hmem := runMainLoop_main_subset p now noFail rest _ e he
          have hh := hasName_of_mem hmem
          rw [hn] at hh
          rw [hasName_removeFirst_self hm] at hh
          cases hh
        · exact ih _ (nodup_removeFirst hm) e he hn

theorem runShadowLoop_young_covered (p now : Int) :
    ∀ (names : List String) (s : FolderState),
      (s.shadow.map FSEntry.name).Nodup →
      (∀ e ∈ s.shadow, should_show (now - e.ctime) p = true →
        (e.name ∈ names ∨ existsInMain s e.name = true)) →
      ∀ e ∈ (runShadowLoop p now noFail names s).1.shadow,
        should_show (now - e.ctime) p = true →
        existsInMain (runShadowLoop p now noFail names s).1 e.name = true := by
  intro names
  induction names with
  | nil =>
    intro s _ hyp e he hy
    simp only [runShadowLoop]
    rcases hyp e (by simpa [runShadowLoop] using he) hy with h | h
    · simp at h
    · exact h
  | cons hf rest ih =>
    intro s hs hyp e he hy
    rw [runShadowLoop_cons] at he ⊢
    cases hfe : findEntry hf s.shadow with
    | none =>
      simp only [hfe] at he ⊢
      refine ih s hs ?_ e he hy
      intro e' he' hy'
      rcases hyp e' he' hy' with h | h
      · rcases List.mem_cons.mp h with h | h
        · exfalso
          have := hasName_of_mem he'
          rw [h] at this
          simp [hasName, hfe] at this
        · exact Or.inl h
      · exact Or.inr h
    | some e₀ =>
      simp only [hfe] at he ⊢
      obtain ⟨hm₀, hn₀⟩ := findEntry_eq_some hfe
      by_cases hy₀ : should_show (now - e₀.ctime) p = true
      · rw [if_pos hy₀] at he ⊢
        by_cases hex : existsInMain s hf = true
        · rw [if_pos hex] at he ⊢
          refine ih s hs ?_ e he hy
          intro e' he' hy'
          rcases hyp e' he' hy' with h | h
          · rcases List.mem_cons.mp h with h | h
            · exact Or.inr (h ▸ hex)
            · exact Or.inl h
          · exact Or.inr h
        · rw [if_neg hex] at he ⊢
          rw [if_neg (by simp [noFail] : ¬noFail .shadowLoc hf = true)] at he ⊢
          refine ih _ (nodup_removeFirst hs) ?_ e he hy
          intro e' he' hy'
          have he'' : e' ∈ s.shadow := removeFirst_subset he'
          rcases hyp e' he'' hy' with h | h
          · rcases List.mem_cons.mp h with h | h
            · exfalso
              have hh := hasName_of_mem he'
              rw [h] at hh
              rw [hasName_removeFirst_self hs] at hh
              cases hh
            · exact Or.inl h
          · exact Or.inr (existsInMain_append h)
      · rw [if_neg hy₀] at he ⊢
        refine ih s hs ?_ e he hy
        intro e' he' hy'
        rcases hyp e' he' hy' with h | h
        · rcases List.mem_cons.mp h with h | h
          · exfalso
            have : findEntry e'.name s.shadow = some e' := findEntry_of_nodup hs he'
            rw [h, hfe] at this
            cases this
            exact hy₀ hy'
          · exact Or.inl h
        · exact Or.inr h

/-! ## Pass-level composition lemmas -/

theorem runMainLoop_noFail_no_abort (p now : Int) :
    ∀ (names : List String) (s : FolderState),
      (runMainLoop p now noFail names s).2.2 = false := by
  intro names
  induction names with
  | nil => intro s; rfl
  | cons f rest ih =>
    intro s
    rw [runMainLoop_cons]
    cases hfe : findEntry f s.main with
    | none =>
      simp only [hfe]
      exact ih s
    | some e =>
      simp only [hfe]
      by_cases hy : should_show (now - e.ctime) p = true
      · rw [if_pos hy]; exact ih s
      · rw [if_neg hy]
        rw [if_neg (by simp [noFail] : ¬noFail .mainLoc f = true)]
        exact ih _

theorem apply_file_filter_noFail (p now : Int) (s : FolderState) :
    apply_file_filter p now noFail s =
      ((runShadowLoop p now noFail
          (((runMainLoop p now noFail (processNames s) s).1.shadow).map FSEntry.name)
          (runMainLoop p now noFail (processNames s) s).1).1,
       (runMainLoop p now noFail (processNames s) s).2.1 ++
        (runShadowLoop p now noFail
          (((runMainLoop p now noFail (processNames s) s).1.shadow).map FSEntry.name)
          (runMainLoop p now noFail (processNames s) s).1).2.1) := by
  unfold apply_file_filter
  simp only [runMainLoop_noFail_no_abort, Bool.false_eq_true, if_false]

theorem apply_file_filter_perm (p now : Int) (fails : FailSpec) (s : FolderState) :
    (((apply_file_filter p now fails s).1.main ++
        (apply_file_filter p now fails s).1.shadow).map FSEntry.ctime).Perm
      ((s.main ++ s.shadow).map FSEntry.ctime) := by
  unfold apply_file_filter
  by_cases h : (runMainLoop p now fails (processNames s) s).2.2 = true
  · simp only [h, if_true]
    exact runMainLoop_perm p now fails (processNames s) s
  · simp only [h, if_false, Bool.false_eq_true]
    exact (runShadowLoop_perm p now fails _ _).trans
      (runMainLoop_perm p now fails (processNames s) s)

theorem apply_file_filter_trace_moves (p now : Int) (fails : FailSpec) (s : FolderState) :
    ((apply_file_filter p now fails s).2).all isMoveAction = true := by
  unfold apply_file_filter
  by_cases h : (runMainLoop p now fails (processNames s) s).2.2 = true
  · simp only [h, if_true]
    exact runMainLoop_trace_moves p now fails (processNames s) s
  · simp only [h, if_false, Bool.false_eq_true, List.all_append, Bool.and_eq_true]
    exact ⟨runMainLoop_trace_moves p now fails (processNames s) s,
      runShadowLoop_trace_moves p now fails _ _⟩

theorem apply_file_filter_young_mem (p now : Int) (fails : FailSpec) (s : FolderState)
    (e : FSEntry) (he : e ∈ s.main) (hy : should_show (now - e.ctime) p = true) :
    e ∈ (apply_file_filter p now fails s).1.main := by
  unfold apply_file_filter
  have h1 := runMainLoop_young_mem p now fails (processNames s) s e he hy
  by_cases h : (runMainLoop p now fails (processNames s) s).2.2 = true
  · simp only [h, if_true]
    exact h1
  · simp only [h, if_false, Bool.false_eq_true]
    exact runShadowLoop_main_mono p now fails _ _ e h1

theorem apply_file_filter_nodup (p now : Int) (fails : FailSpec) (s : FolderState)
    (hm : (s.main.map FSEntry.name).Nodup) (hs : (s.shadow.map FSEntry.name).Nodup) :
    ((apply_file_filter p now fails s).1.main.map FSEntry.name).Nodup ∧
    ((apply_file_filter p now fails s).1.shadow.map FSEntry.name).Nodup := by
  unfold apply_file_filter
  have h1 := runMainLoop_nodup p now fails (processNames s) s hm hs
  by_cases h : (runMainLoop p now fails (processNames s) s).2.2 = true
  · simp only [h, if_true]
    exact h1
  · simp only [h, if_false, Bool.false_eq_true]
    exact runShadowLoop_nodup p now fails _ _ h1.1 h1.2

theorem apply_file_filter_main_young (p now : Int) (s : FolderState)
    (hm : (s.main.map FSEntry.name).Nodup) :
    ∀ e ∈ (apply_file_filter p now noFail s).1.main,
      (!startsWithDot e.name && !(e.name == "old")) = true →
      should_show (now - e.ctime) p = true := by
  intro e he hproc
  rw [apply_file_filter_noFail] at he
  simp only at he
  rcases runShadowLoop_main_new_young p now noFail _ _ e he with hmem | hy
  · refine runMainLoop_result_young p now (processNames s) s hm e hmem ?_
    have hin : e ∈ s.main := runMainLoop_main_subset p now noFail _ s e hmem
    unfold processNames
    rw [List.mem_filter]
    exact ⟨List.mem_map_of_mem _ hin, hproc⟩
  · exact hy

theorem apply_file_filter_shadow_covered (p now : Int) (s : FolderState)
    (hm : (s.main.map FSEntry.name).Nodup) (hs : (s.shadow.map FSEntry.name).Nodup) :
    ∀ e ∈ (apply_file_filter p now noFail s).1.shadow,
      should_show (now - e.ctime) p = true →
      existsInMain (apply_file_filter p now noFail s).1 e.name = true := by
  intro e he hy
  rw [apply_file_filter_noFail] at he ⊢
  simp only at he ⊢
  have h1 := runMainLoop_nodup p now noFail (processNames s) s hm hs
  refine runShadowLoop_young_covered p now _ _ h1.2 ?_ e he hy
  intro e' he' _
  exact Or.inl (List.mem_map_of_mem _ he')

/-! ## `auto_cleanup`: per-item isolation -/

theorem cleanupFiles_del_mem (p now : Int) (fails : FailSpec) :
    ∀ (l : List FSEntry) (e : FSEntry), e ∈ l → cleanup_deletes (now - e.ctime) p = true →
      fails .mainLoc e.name = false →
      Action.del e.name ∈ (cleanupFiles p now fails l).2 := by
  intro l
  induction l with
  | nil => intro e he; simp at he
  | cons x xs ih =>
    intro e he hold hok
    rcases List.mem_cons.mp he with he | he
    · subst he
      simp only [cleanupFiles, hold, if_true, hok, Bool.false_eq_true, if_false]
      exact List.mem_cons_self _ _
    · have htail := ih e he hold hok
      simp only [cleanupFiles]
      by_cases hx : cleanup_deletes (now - x.ctime) p = true
      · rw [if_pos hx]
        by_cases hfx : fails .mainLoc x.name = true
        · rw [if_pos hfx]
          exact htail
        · rw [if_neg hfx]
          exact List.mem_cons_of_mem _ htail
      · rw [if_neg hx]
        exact htail

/-! ## Claim theorems -/

/-- Claim C1: for every age and configuration with a non-negative
filterPeriod, the classification computed by the reconciliation pass
(`should_show`) and by the auto-delete pass (`cleanup_deletes`) satisfies
the policy: `age ≤ filterPeriod` is Visible (boundary inclusive),
`age > filterPeriod` is Hidden when autoDelete is off and Delete when it
is on; `classify_code` is a total function and coincides with the spec's
`classifySpec`. -/
theorem c1_classification_policy (age p : Int) (autoDelete : Bool) (hp : 0 ≤ p) :
    (age ≤ p → classify_code age p autoDelete = .Visible) ∧
    (p < age → autoDelete = false → classify_code age p autoDelete = .Hidden) ∧
    (p < age → autoDelete = true → classify_code age p autoDelete = .Delete) ∧
    classify_code age p autoDelete = classifySpec age p autoDelete ∧
    (should_show age p = true ↔ age ≤ p) ∧
    (cleanup_deletes age p = true ↔ p < age) := by
  refine ⟨?_, ?_, ?_, ?_, ?_, ?_⟩
  · intro h; simp [classify_code, should_show, h]
  · intro h hb; subst hb; simp [classify_code, should_show, not_le.mpr h]
  · intro h hb; subst hb; simp [classify_code, should_show, not_le.mpr h]
  · by_cases h : age ≤ p
    · simp [classify_code, classifySpec, should_show, h]
    · cases autoDelete <;> simp [classify_code, classifySpec, should_show, h]
  · simp [should_show]
  · simp [cleanup_deletes]

/-- Witness for C1 at `age = 100`, `p = 86400`, `autoDelete = false`. -/
theorem c1_classification_policy_witness :
    (0 : Int) ≤ 86400 ∧
    (((100 : Int) ≤ 86400 → classify_code 100 86400 false = .Visible) ∧
     ((86400 : Int) < 100 → false = false → classify_code 100 86400 false = .Hidden) ∧
     ((86400 : Int) < 100 → false = true → classify_code 100 86400 false = .Delete) ∧
     classify_code 100 86400 false = classifySpec 100 86400 false ∧
     (should_show 100 86400 = true ↔ (100 : Int) ≤ 86400) ∧
     (cleanup_deletes 100 86400 = true ↔ (86400 : Int) < 100)) :=
  ⟨by decide, c1_classification_policy 100 86400 false (by decide)⟩

/-- Claim C2, code-bug evidence: with auto-delete on, `auto_cleanup`
judges the `"old"` directory by the directory's own ctime.  Once that
directory is over-age, the whole shadow folder is `shutil.rmtree`d
wholesale — here deleting "f.txt", a file only 10 seconds old (Visible by
`should_show`); and while the directory is young, "g.txt", an over-age
shadow file (`cleanup_deletes` true), is not deleted at all. -/
theorem c2_auto_cleanup_wholesale :
    (auto_cleanup ⟨86400, true⟩ 200000 noFail ⟨[], 0, [⟨"f.txt", 199990⟩]⟩ =
        (⟨[], 0, []⟩, [.delTree]) ∧
      should_show ((200000 : Int) - 199990) 86400 = true) ∧
    (auto_cleanup ⟨86400, true⟩ 200000 noFail ⟨[], 199999, [⟨"g.txt", 0⟩]⟩ =
        (⟨[], 199999, [⟨"g.txt", 0⟩]⟩, []) ∧
      cleanup_deletes ((200000 : Int) - 0) 86400 = true) := by
  refine ⟨⟨by decide, by decide⟩, by decide, by decide⟩

/-- Claim C3, counterexample: duplicate names across the two folders can
survive a pass, on a state reached by the system's own operations:
"f.txt" dropped at t=0 is hidden by the pass at t=100000; a second
"f.txt" is ingested at t=100001; the pass at t=100002 completes with
"f.txt" present both directly under the managed folder and in "old". -/
theorem c3_counterexample :
    let s1 := (apply_file_filter 86400 100000 noFail ⟨[⟨"f.txt", 0⟩], 0, []⟩).1
    let s2 := (view_drop_ingest s1 "f.txt" 100001).1
    let s3 := (apply_file_filter 86400 100002 noFail s2).1
    hasName s3.main "f.txt" = true ∧ hasName s3.shadow "f.txt" = true := by
  decide

/-- Claim C3 as amended: a reconciliation pass preserves name-uniqueness
within each folder separately — hide-moves pick a name free in "old",
restore-moves fire only when the name is free in the managed folder — but
cross-folder duplicates are neither prevented nor resolved (see the
counterexample). -/
theorem c3_per_folder_uniqueness (p now : Int) (fails : FailSpec) (s : FolderState)
    (hm : (s.main.map FSEntry.name).Nodup) (hs : (s.shadow.map FSEntry.name).Nodup) :
    ((apply_file_filter p now fails s).1.main.map FSEntry.name).Nodup ∧
    ((apply_file_filter p now fails s).1.shadow.map FSEntry.name).Nodup :=
  apply_file_filter_nodup p now fails s hm hs

/-- Witness for the amended C3 on a four-file state. -/
theorem c3_per_folder_uniqueness_witness :
    ((([⟨"a.txt", 0⟩, ⟨"b.txt", 99990⟩] : List FSEntry).map FSEntry.name).Nodup ∧
     (([⟨"c.txt", 99980⟩, ⟨"d.txt", 5⟩] : List FSEntry).map FSEntry.name).Nodup) ∧
    (((apply_file_filter 86400 100000 noFail
        ⟨[⟨"a.txt", 0⟩, ⟨"b.txt", 99990⟩], 0,
          [⟨"c.txt", 99980⟩, ⟨"d.txt", 5⟩]⟩).1.main.map FSEntry.name).Nodup ∧
     ((apply_file_filter 86400 100000 noFail
        ⟨[⟨"a.txt", 0⟩, ⟨"b.txt", 99990⟩], 0,
          [⟨"c.txt", 99980⟩, ⟨"d.txt", 5⟩]⟩).1.shadow.map FSEntry.name).Nodup) :=
  ⟨⟨by decide, by decide⟩,
    c3_per_folder_uniqueness 86400 100000 noFail _ (by decide) (by decide)⟩

/-- Claim C4, counterexample: a restore-move into an occupied name is not
suffixed — it is skipped.  "f.txt" in "old" is young (age 20, Visible)
but its name exists in the managed folder; the pass moves nothing, and no
"f_1.txt" appears anywhere, contradicting the claim that restore-moves
disambiguate with a numeric suffix. -/
theorem c4_counterexample :
    apply_file_filter 86400 100 noFail ⟨[⟨"f.txt", 90⟩], 0, [⟨"f.txt", 80⟩]⟩ =
      (⟨[⟨"f.txt", 90⟩], 0, [⟨"f.txt", 80⟩]⟩, []) ∧
    should_show ((100 : Int) - 80) 86400 = true := by
  decide

/-- Claim C4 as amended: the collision-avoidance naming used by
hide-moves and by drop-ingestion (`nextFreeName`) picks exactly the first
free candidate of `candSeq` — the original name, then `base_1`, `base_2`,
… before the extension; restore-moves, however, never rename: on
collision the file stays in "old" (nothing is overwritten either way). -/
theorem c4_collision_suffix_first_free (dest : List String) (file : String)
    (s : FolderState) (filename : String) (now : Int) :
    (∃ j, nextFreeName dest (splitext file).1 (splitext file).2 (dest.length + 1) 1 file =
          candSeq (splitext file).1 (splitext file).2 j ∧
        candSeq (splitext file).1 (splitext file).2 j ∉ dest ∧
        ∀ i < j, candSeq (splitext file).1 (splitext file).2 i ∈ dest) ∧
    (∃ j, (view_drop_ingest s filename now).2 =
          candSeq (splitext filename).1 (splitext filename).2 j ∧
        candSeq (splitext filename).1 (splitext filename).2 j ∉ mainExistsNames s ∧
        ∀ i < j, candSeq (splitext filename).1 (splitext filename).2 i ∈ mainExistsNames s) := by
  constructor
  · have h := nextFreeName_first_free dest (splitext file).1 (splitext file).2
    rwa [splitext_append file] at h
  · have h := nextFreeName_first_free (mainExistsNames s)
      (splitext filename).1 (splitext filename).2
    rw [splitext_append filename] at h
    exact h

/-- Witness for the amended C4: dropping a second "report.pdf" yields
"report_1.pdf" (Scenario C). -/
theorem c4_collision_suffix_first_free_witness :
    (∃ j, nextFreeName ["report.pdf"] (splitext "report.pdf").1 (splitext "report.pdf").2
          ((["report.pdf"] : List String).length + 1) 1 "report.pdf" =
          candSeq (splitext "report.pdf").1 (splitext "report.pdf").2 j ∧
        candSeq (splitext "report.pdf").1 (splitext "report.pdf").2 j ∉
          (["report.pdf"] : List String) ∧
        ∀ i < j, candSeq (splitext "report.pdf").1 (splitext "report.pdf").2 i ∈
          (["report.pdf"] : List String)) ∧
    (∃ j, (view_drop_ingest ⟨[⟨"report.pdf", 0⟩], 0, []⟩ "report.pdf" 5).2 =
          candSeq (splitext "report.pdf").1 (splitext "report.pdf").2 j ∧
        candSeq (splitext "report.pdf").1 (splitext "report.pdf").2 j ∉
          mainExistsNames ⟨[⟨"report.pdf", 0⟩], 0, []⟩ ∧
        ∀ i < j, candSeq (splitext "report.pdf").1 (splitext "report.pdf").2 i ∈
          mainExistsNames ⟨[⟨"report.pdf", 0⟩], 0, []⟩) :=
  c4_collision_suffix_first_free ["report.pdf"] "report.pdf"
    ⟨[⟨"report.pdf", 0⟩], 0, []⟩ "report.pdf" 5

/-- Claim C5, counterexample: `on_auto_delete_changed` only stores the
checkbox value.  At t=90001 with an over-age file in "old" (Scenario B of
the spec), enabling auto-delete performs no pass and deletes nothing: the
folder state is returned unchanged with an empty action trace, although
`cleanup_deletes` classifies the file for deletion. -/
theorem c5_counterexample :
    on_auto_delete_changed true ⟨86400, false⟩ ⟨[], 0, [⟨"f.txt", 0⟩]⟩ =
      (⟨86400, true⟩, ⟨[], 0, [⟨"f.txt", 0⟩]⟩, []) ∧
    cleanup_deletes ((90001 : Int) - 0) 86400 = true := by
  decide

/-- Claim C5 as amended: `on_filter_changed` does run `apply_file_filter`
with the new period before returning — but that pass only hides and
restores (every trace action is a move), it never deletes; and
`on_auto_delete_changed` runs no pass at all, so deletion of over-age
files waits for the next cleanup timer tick. -/
theorem c5_settings_handlers (newPeriod now : Int) (fails : FailSpec) (cfg : Config)
    (b : Bool) (s : FolderState) :
    on_filter_changed newPeriod now fails cfg s =
      ({ cfg with filter_period := newPeriod },
        (apply_file_filter newPeriod now fails s).1,
        (apply_file_filter newPeriod now fails s).2) ∧
    ((on_filter_changed newPeriod now fails cfg s).2.2).all isMoveAction = true ∧
    on_auto_delete_changed b cfg s = ({ cfg with auto_delete := b }, s, []) :=
  ⟨rfl, apply_file_filter_trace_moves newPeriod now fails s, rfl⟩

/-- Witness for the amended C5 at a concrete settings change. -/
theorem c5_settings_handlers_witness :
    on_filter_changed 60 100 noFail ⟨86400, false⟩ ⟨[⟨"f.txt", 0⟩], 0, []⟩ =
      (⟨60, false⟩, (apply_file_filter 60 100 noFail ⟨[⟨"f.txt", 0⟩], 0, []⟩).1,
        (apply_file_filter 60 100 noFail ⟨[⟨"f.txt", 0⟩], 0, []⟩).2) ∧
    ((on_filter_changed 60 100 noFail ⟨86400, false⟩
        ⟨[⟨"f.txt", 0⟩], 0, []⟩).2.2).all isMoveAction = true ∧
    on_auto_delete_changed true ⟨86400, false⟩ ⟨[⟨"f.txt", 0⟩], 0, []⟩ =
      (⟨86400, true⟩, ⟨[⟨"f.txt", 0⟩], 0, []⟩, []) :=
  c5_settings_handlers 60 100 noFail ⟨86400, false⟩ true ⟨[⟨"f.txt", 0⟩], 0, []⟩

/-- Claim C6, counterexample: "a.txt" and "b.txt" are both over-age and
due to be hidden; the move of "a.txt" raises, and the single try/except
around the whole loop abandons the pass — nothing at all is moved, so
"b.txt" is left unprocessed, contradicting per-file error isolation for
the reconciliation pass. -/
theorem c6_counterexample :
    apply_file_filter 86400 100000 (fun l n => l == Loc.mainLoc && n == "a.txt")
        ⟨[⟨"a.txt", 0⟩, ⟨"b.txt", 0⟩], 0, []⟩ =
      (⟨[⟨"a.txt", 0⟩, ⟨"b.txt", 0⟩], 0, []⟩, []) ∧
    should_show ((100000 : Int) - 0) 86400 = false := by
  decide

/-- Claim C6 as amended: in the auto-delete pass each listed item has its
own try/except, so whatever other deletions fail, an over-age file whose
own deletion does not fail is deleted; in the reconciliation pass, by
contrast, the first failing move aborts the remainder of the pass (the
error is caught and reported at pass level; see the counterexample). -/
theorem c6_cleanup_per_file_isolation (p now : Int) (fails : FailSpec) (s : FolderState)
    (e : FSEntry) (hmem : e ∈ s.main) (hold : cleanup_deletes (now - e.ctime) p = true)
    (hok : fails .mainLoc e.name = false) :
    Action.del e.name ∈ (auto_cleanup ⟨p, true⟩ now fails s).2 := by
  have h := cleanupFiles_del_mem p now fails s.main e hmem hold hok
  unfold auto_cleanup
  simp only [Bool.not_true, Bool.false_eq_true, if_false]
  by_cases hd : cleanup_deletes (now - s.oldCtime) p = true
  · rw [if_pos hd]
    by_cases hf : fails .mainLoc "old" = true
    · rw [if_pos hf]
      exact h
    · rw [if_neg hf]
      exact List.mem_append_left _ h
  · rw [if_neg hd]
    exact h

/-- Witness for the amended C6: the deletion of "x.txt" fails, yet
"a.txt" (over-age, non-failing) is still deleted. -/
theorem c6_cleanup_per_file_isolation_witness :
    ((⟨"a.txt", 0⟩ : FSEntry) ∈ ([⟨"a.txt", 0⟩, ⟨"x.txt", 0⟩] : List FSEntry) ∧
     cleanup_deletes ((200000 : Int) - 0) 86400 = true ∧
     ((fun (_ : Loc) (n : String) => n == "x.txt") Loc.mainLoc "a.txt") = false) ∧
    Action.del "a.txt" ∈
      (auto_cleanup ⟨86400, true⟩ 200000 (fun _ n => n == "x.txt")
        ⟨[⟨"a.txt", 0⟩, ⟨"x.txt", 0⟩], 0, []⟩).2 :=
  ⟨⟨by decide, by decide, by decide⟩,
    c6_cleanup_per_file_isolation 86400 200000 (fun _ n => n == "x.txt")
      ⟨[⟨"a.txt", 0⟩, ⟨"x.txt", 0⟩], 0, []⟩ ⟨"a.txt", 0⟩
      (by decide) (by decide) (by decide)⟩

/-- Claim C7: reconciliation is idempotent.  From any well-formed folder
state (names unique within each folder, as on a real filesystem), after
one failure-free pass, a second pass — at any instant at which no
surviving file's `should_show` classification has changed — performs no
actions and returns the state exactly as the first pass left it. -/
theorem c7_idempotent (p now now2 : Int) (s : FolderState)
    (hm : (s.main.map FSEntry.name).Nodup) (hs : (s.shadow.map FSEntry.name).Nodup)
    (htime : ∀ e : FSEntry,
      (e ∈ (apply_file_filter p now noFail s).1.main ∨
       e ∈ (apply_file_filter p now noFail s).1.shadow) →
      should_show (now2 - e.ctime) p = should_show (now - e.ctime) p) :
    apply_file_filter p now2 noFail (apply_file_filter p now noFail s).1 =
      ((apply_file_filter p now noFail s).1, []) := by
  set S1 := (apply_file_filter p now noFail s).1 with hS1
  have hmain : ∀ e ∈ S1.main, (!startsWithDot e.name && !(e.name == "old")) = true →
      should_show (now2 - e.ctime) p = true := by
    intro e he hp
    rw [htime e (Or.inl he)]
    exact apply_file_filter_main_young p now s hm e he hp
  have hshadow : ∀ e ∈ S1.shadow, should_show (now2 - e.ctime) p = true →
      existsInMain S1 e.name = true := by
    intro e he hy
    rw [htime e (Or.inr he)] at hy
    exact apply_file_filter_shadow_covered p now s hm hs e he hy
  have h1 : runMainLoop p now2 noFail (processNames S1) S1 = (S1, [], false) := by
    apply runMainLoop_noop
    intro f hf e he hn
    subst hn
    refine hmain e he ?_
    unfold processNames at hf
    exact (List.mem_filter.mp hf).2
  have h2 : runShadowLoop p now2 noFail (S1.shadow.map FSEntry.name) S1 =
      (S1, [], false) := by
    exact runShadowLoop_noop p now2 _ S1 hshadow
  rw [apply_file_filter_noFail]
  simp only [h1]
  simp only [h2, List.nil_append]

/-- Witness for C7 on a four-file state, with the second pass 60 seconds
after the first. -/
theorem c7_idempotent_witness :
    ((([⟨"a.txt", 0⟩, ⟨"b.txt", 99990⟩] : List FSEntry).map FSEntry.name).Nodup ∧
     (([⟨"c.txt", 99980⟩, ⟨"d.txt", 5⟩] : List FSEntry).map FSEntry.name).Nodup ∧
     (∀ e : FSEntry,
       (e ∈ (apply_file_filter 86400 100000 noFail
              ⟨[⟨"a.txt", 0⟩, ⟨"b.txt", 99990⟩], 0,
                [⟨"c.txt", 99980⟩, ⟨"d.txt", 5⟩]⟩).1.main ∨
        e ∈ (apply_file_filter 86400 100000 noFail
              ⟨[⟨"a.txt", 0⟩, ⟨"b.txt", 99990⟩], 0,
                [⟨"c.txt", 99980⟩, ⟨"d.txt", 5⟩]⟩).1.shadow) →
       should_show (100060 - e.ctime) 86400 = should_show (100000 - e.ctime) 86400)) ∧
    apply_file_filter 86400 100060 noFail
        (apply_file_filter 86400 100000 noFail
          ⟨[⟨"a.txt", 0⟩, ⟨"b.txt", 99990⟩], 0,
            [⟨"c.txt", 99980⟩, ⟨"d.txt", 5⟩]⟩).1 =
      ((apply_file_filter 86400 100000 noFail
          ⟨[⟨"a.txt", 0⟩, ⟨"b.txt", 99990⟩], 0,
            [⟨"c.txt", 99980⟩, ⟨"d.txt", 5⟩]⟩).1, []) := by
  have htime : ∀ e : FSEntry,
      (e ∈ (apply_file_filter 86400 100000 noFail
             ⟨[⟨"a.txt", 0⟩, ⟨"b.txt", 99990⟩], 0,
               [⟨"c.txt", 99980⟩, ⟨"d.txt", 5⟩]⟩).1.main ∨
       e ∈ (apply_file_filter 86400 100000 noFail
             ⟨[⟨"a.txt", 0⟩, ⟨"b.txt", 99990⟩], 0,
               [⟨"c.txt", 99980⟩, ⟨"d.txt", 5⟩]⟩).1.shadow) →
      should_show (100060 - e.ctime) 86400 = should_show (100000 - e.ctime) 86400 := by
    intro e he
    have hS : (apply_file_filter 86400 100000 noFail
        ⟨[⟨"a.txt", 0⟩, ⟨"b.txt", 99990⟩], 0, [⟨"c.txt", 99980⟩, ⟨"d.txt", 5⟩]⟩).1 =
        ⟨[⟨"b.txt", 99990⟩, ⟨"c.txt", 99980⟩], 0, [⟨"d.txt", 5⟩, ⟨"a.txt", 0⟩]⟩ := by
      decide
    rw [hS] at he
    simp only [List.mem_cons, List.not_mem_nil, or_false] at he
    rcases he with (rfl | rfl) | (rfl | rfl) <;> decide
  exact ⟨⟨by decide, by decide, htime⟩,
    c7_idempotent 86400 100000 100060 _ (by decide) (by decide) htime⟩

/-- Claim C8: the reconciliation pass has no data-loss path: whatever the
failure oracle does, every action in its trace is a move (`isMoveAction`)
— never a delete — and the multiset of file timestamps across the managed
and shadow folders is exactly preserved, so a failed move leaves the file
where it was. -/
theorem c8_no_silent_loss (p now : Int) (fails : FailSpec) (s : FolderState) :
    ((apply_file_filter p now fails s).2).all isMoveAction = true ∧
    (((apply_file_filter p now fails s).1.main ++
        (apply_file_filter p now fails s).1.shadow).map FSEntry.ctime).Perm
      ((s.main ++ s.shadow).map FSEntry.ctime) :=
  ⟨apply_file_filter_trace_moves p now fails s, apply_file_filter_perm p now fails s⟩

/-- Witness for C8 on a pass that hides one file while another move
fails. -/
theorem c8_no_silent_loss_witness :
    ((apply_file_filter 86400 100000 (fun _ n => n == "b.txt")
        ⟨[⟨"a.txt", 0⟩, ⟨"b.txt", 10⟩], 0, [⟨"c.txt", 99990⟩]⟩).2).all isMoveAction = true ∧
    (((apply_file_filter 86400 100000 (fun _ n => n == "b.txt")
          ⟨[⟨"a.txt", 0⟩, ⟨"b.txt", 10⟩], 0, [⟨"c.txt", 99990⟩]⟩).1.main ++
        (apply_file_filter 86400 100000 (fun _ n => n == "b.txt")
          ⟨[⟨"a.txt", 0⟩, ⟨"b.txt", 10⟩], 0, [⟨"c.txt", 99990⟩]⟩).1.shadow).map
        FSEntry.ctime).Perm
      ((([⟨"a.txt", 0⟩, ⟨"b.txt", 10⟩] : List FSEntry) ++
        ([⟨"c.txt", 99990⟩] : List FSEntry)).map FSEntry.ctime) :=
  c8_no_silent_loss 86400 100000 (fun _ n => n == "b.txt")
    ⟨[⟨"a.txt", 0⟩, ⟨"b.txt", 10⟩], 0, [⟨"c.txt", 99990⟩]⟩

/-- Claim C9: a file whose ctime lies in the future of the clock
(negative age) is classified Visible by both code tests, exactly as an
age-0 file would be (for the non-negative filter periods the settings UI
offers), and a reconciliation pass leaves it in the managed folder:
it is neither hidden nor deleted. -/
theorem c9_negative_age_visible (p now : Int) (autoDelete : Bool) (fails : FailSpec)
    (s : FolderState) (e : FSEntry) (hfut : now < e.ctime) (hp : 0 ≤ p) :
    should_show (now - e.ctime) p = true ∧
    classify_code (now - e.ctime) p autoDelete = .Visible ∧
    classify_code (now - e.ctime) p autoDelete = classify_code 0 p autoDelete ∧
    cleanup_deletes (now - e.ctime) p = false ∧
    cleanup_deletes (now - e.ctime) p = cleanup_deletes 0 p ∧
    (e ∈ s.main → e ∈ (apply_file_filter p now fails s).1.main) := by
  have hle : now - e.ctime ≤ p := by omega
  have h0 : should_show (now - e.ctime) p = true := by simp [should_show, hle]
  have h0' : should_show 0 p = true := by simp [should_show, hp]
  refine ⟨h0, ?_, ?_, ?_, ?_, ?_⟩
  · simp [classify_code, h0]
  · simp [classify_code, h0, h0']
  · simp [cleanup_deletes]; omega
  · have : cleanup_deletes (now - e.ctime) p = false := by simp [cleanup_deletes]; omega
    have h2 : cleanup_deletes 0 p = false := by simp [cleanup_deletes]; omega
    rw [this, h2]
  · intro hm
    exact apply_file_filter_young_mem p now fails s e hm h0

/-- Witness for C9: a file stamped 100 seconds in the future. -/
theorem c9_negative_age_visible_witness :
    ((100 : Int) < (⟨"f.txt", 200⟩ : FSEntry).ctime ∧ (0 : Int) ≤ 86400) ∧
    (should_show (100 - (⟨"f.txt", 200⟩ : FSEntry).ctime) 86400 = true ∧
     classify_code (100 - (⟨"f.txt", 200⟩ : FSEntry).ctime) 86400 true = .Visible ∧
     classify_code (100 - (⟨"f.txt", 200⟩ : FSEntry).ctime) 86400 true =
       classify_code 0 86400 true ∧
     cleanup_deletes (100 - (⟨"f.txt", 200⟩ : FSEntry).ctime) 86400 = false ∧
     cleanup_deletes (100 - (⟨"f.txt", 200⟩ : FSEntry).ctime) 86400 =
       cleanup_deletes 0 86400 ∧
     ((⟨"f.txt", 200⟩ : FSEntry) ∈ ([⟨"f.txt", 200⟩] : List FSEntry) →
       (⟨"f.txt", 200⟩ : FSEntry) ∈
         (apply_file_filter 86400 100 noFail ⟨[⟨"f.txt", 200⟩], 0, []⟩).1.main)) :=
  ⟨⟨by decide, by decide⟩,
    c9_negative_age_visible 86400 100 true noFail ⟨[⟨"f.txt", 200⟩], 0, []⟩
      ⟨"f.txt", 200⟩ (by decide) (by decide)⟩

/-- Claim C10: with `auto_delete` unset, `auto_cleanup` returns
immediately: the folder state is unchanged and no action is performed,
whatever the folder contents, the clock, or the failure oracle. -/
theorem c10_auto_cleanup_disabled_noop (cfg : Config) (now : Int) (fails : FailSpec)
    (s : FolderState) (h : cfg.auto_delete = false) :
    auto_cleanup cfg now fails s = (s, []) := by
  simp [auto_cleanup, h]

/-- Witness for C10 on a non-trivial state full of over-age files. -/
theorem c10_auto_cleanup_disabled_noop_witness :
    (Config.mk 86400 false).auto_delete = false ∧
    auto_cleanup ⟨86400, false⟩ 200000 noFail ⟨[⟨"f.txt", 0⟩], 0, [⟨"g.txt", 0⟩]⟩ =
      (⟨[⟨"f.txt", 0⟩], 0, [⟨"g.txt", 0⟩]⟩, []) :=
  ⟨rfl, c10_auto_cleanup_disabled_noop ⟨86400, false⟩ 200000 noFail
    ⟨[⟨"f.txt", 0⟩], 0, [⟨"g.txt", 0⟩]⟩ rfl⟩

end TempDesk
